import Mathlib

/-!
Verification of the marjapussi trick legality/resolution engine and the
standing-cards analyzer against the repository sources.

Embedded modules:
- card.py: the `Card` value (color, value), constructor validation, and the
  rank comparison `is_higher_than`. The bare module-level names `COLORS` and
  `VALUES` referenced by card.py are the canonical constants of utils.py.
- utils.py: `COLORS`, `VALUES`, `CARDS`, `allowed_first`, `high_card`,
  `allowed_general`, `higher_cards`.
- agent.py: `Agent._standing_cards`.

The Python class `Card` defines neither an order (`__lt__`/`__gt__`; only
`__eq__` and `__hash__`) nor a class attribute `VALUES`. Consequently, in
`high_card`, the inner `max(base_col_cards, default=None)` (which has no
`key=` argument) raises a `TypeError` as soon as `base_col_cards` has two or
more elements, and the outer `max(..., key=lambda card:
card.VALUES.index(card.value))` raises an `AttributeError` as soon as
`trump_cards` is non-empty (the key touches the missing attribute
`card.VALUES` on every element). Both failure modes are embedded faithfully:
fallible functions return `Except PyErr`.
-/

/-- utils.py line 3: the four suit symbols r (Rot), s (Schell), e (Eichel),
g (Gruen). -/
def COLORS : List String := ["r", "s", "e", "g"]

/-- utils.py line 4: the canonical ascending-strength rank order; "A" is the
weakest rank and "6" the strongest. -/
def VALUES : List String := ["A", "Z", "K", "O", "U", "9", "8", "7", "6"]

/-- card.py: a Card is a (color, value) pair, value-equal and hashable. -/
structure Card where
  color : String
  value : String
deriving DecidableEq, Repr

/-- card.py, Card.__init__: raises ValueError for a color outside COLORS or a
value outside VALUES, otherwise constructs the card. -/
def Card.init (color value : String) : Except String Card :=
  if color ∉ COLORS then Except.error ("Invalid color: " ++ color)
  else if value ∉ VALUES then Except.error ("Invalid value: " ++ value)
  else Except.ok ⟨color, value⟩

/-- card.py, Card.is_higher_than: compares the positions of the two values in
VALUES (self strictly later than other). -/
def Card.is_higher_than (a b : Card) : Bool :=
  decide (VALUES.indexOf b.value < VALUES.indexOf a.value)

/-- utils.py line 6: the 36-card deck, suits in COLORS order, each suit in
VALUES order. -/
def CARDS : List Card := COLORS.flatMap (fun c => VALUES.map (fun v => Card.mk c v))

/-- utils.py, allowed_first: all aces of the hand; if none, all green cards;
if none, the whole hand. -/
def allowed_first (cards : List Card) : List Card :=
  if (cards.filter (fun c => c.value == "A")).isEmpty then
    if (cards.filter (fun c => c.color == "g")).isEmpty then cards
    else cards.filter (fun c => c.color == "g")
  else cards.filter (fun c => c.value == "A")

/-- The runtime errors the embedded utils.py code can raise. -/
inductive PyErr where
  | typeError
  | attributeError
deriving DecidableEq, Repr

/-- utils.py, high_card. The source is
`max(trump_cards, default=max(base_col_cards, default=None), key=lambda card:
card.VALUES.index(card.value))`. Python evaluates the `default=` argument
first: `max(base_col_cards, default=None)` has no key and compares Card
objects with `>`, which Card does not support, so it raises TypeError whenever
`base_col_cards` has at least two elements (`base_col_cards` always contains
`cards[0]`). Otherwise, if `trump_cards` is non-empty, the outer max applies
its key, which reads the missing attribute `card.VALUES`: AttributeError.
Only when `trump_cards` is empty is the (singleton) default returned. -/
def high_card (cards : List Card) (trump : Option String) : Except PyErr (Option Card) :=
  match cards with
  | [] => Except.ok none
  | c0 :: rest =>
    if 2 ≤ ((c0 :: rest).filter (fun c => c.color == c0.color)).length then
      Except.error PyErr.typeError
    else if ((c0 :: rest).filter (fun c => trump == some c.color)).isEmpty then
      Except.ok ((c0 :: rest).filter (fun c => c.color == c0.color)).head?
    else Except.error PyErr.attributeError

/-- utils.py, allowed_general lines 45-47: the follow subset — the cards of the
led color, or, when there are none, the cards of the trump color. -/
def followSubset (trick_col : String) (cards : List Card) (trump : Option String) : List Card :=
  if (cards.filter (fun c => c.color == trick_col)).isEmpty then
    cards.filter (fun c => trump == some c.color)
  else cards.filter (fun c => c.color == trick_col)

/-- utils.py, allowed_general: the legality engine. A Python `trump` of None
or "" is `none` here. Errors propagate from high_card. -/
def allowed_general (trick cards : List Card) (trump : Option String) (first : Bool) :
    Except PyErr (List Card) :=
  match trick with
  | [] => if first then Except.ok (allowed_first cards) else Except.ok cards
  | t0 :: rest =>
    match (if first then
            cards.find? (fun c => c.color == t0.color && c.value == "A")
           else none) with
    | some ace => Except.ok [ace]
    | none =>
      let allowed := followSubset t0.color cards trump
      match high_card ((t0 :: rest) ++ allowed) trump with
      | Except.error e => Except.error e
      | Except.ok high =>
        let allowed2 := match high with
          | some h => if h ∈ allowed then [h] else allowed
          | none => allowed
        Except.ok (if allowed2.isEmpty then cards else allowed2)

/-- utils.py, higher_cards: with no trump, the pool cards of base's color that
are strictly higher; with a trump, additionally every card of the trump color
(base's own color included when it is the trump color). Python's falsy trump
('' or None) is `none`. -/
def higher_cards (base : Card) (trump : Option String) (pool : List Card) : List Card :=
  match trump with
  | none => pool.filter (fun c => c.is_higher_than base && base.color == c.color)
  | some t => pool.filter (fun c => (c.is_higher_than base && base.color == c.color) || c.color == t)

/-- Modelled from the spec: the agent-side card model. agent.py imports `Card`
(with `suit` and `rank` fields), `Color`, `Value` and `Deck` from a
`marjapussi.utils` module that is not the utils.py under src/; per spec section
3 a card is a (suit, rank) pair whose rank ordering is the position in the
canonical ascending-strength sequence [A, Z, K, O, U, 9, 8, 7, 6], so `rank`
is that position (0 = A, weakest, through 8 = 6, strongest) and comparisons of
`card.rank` compare those positions. -/
structure CardR where
  suit : String
  rank : Nat
deriving DecidableEq, Repr

/-- Python `max(l, key=lambda card: card.rank)`: the first element of maximal
rank (a later element replaces the current one only when strictly greater);
`none` for an empty list. -/
def pymax (l : List CardR) : Option CardR :=
  match l with
  | [] => none
  | x :: xs => some (xs.foldl (fun acc c => if acc.rank < c.rank then c else acc) x)

/-- Python `sorted(l, key=lambda card: card.rank, reverse=True)`: a stable
descending sort by rank. -/
def sortDesc (l : List CardR) : List CardR :=
  List.insertionSort (fun a b => b.rank ≤ a.rank) l

/-- agent.py, Agent._standing_cards, no-trump loop, first rule: if there are
possible cards of the suit and the highest card of the suit in hand has rank
at least the highest possible rank, that highest card in hand is standing. -/
def standingSuitRule1 (possible : String → List CardR) (hand : List CardR) (s : String) :
    List CardR :=
  match pymax (hand.filter (fun c => c.suit == s)) with
  | none => []
  | some highest_in_hand =>
    match pymax (possible s) with
    | none => []
    | some highest_possible =>
      if highest_possible.rank ≤ highest_in_hand.rank then [highest_in_hand] else []

/-- agent.py, Agent._standing_cards, no-trump loop, second rule: if the hand
holds more cards of the suit than are possible for the opponents, the excess
highest-ranked cards of the suit are standing. -/
def standingSuitRule2 (possible : String → List CardR) (hand : List CardR) (s : String) :
    List CardR :=
  if (possible s).length < (hand.filter (fun c => c.suit == s)).length then
    (sortDesc (hand.filter (fun c => c.suit == s))).take
      ((hand.filter (fun c => c.suit == s)).length - (possible s).length)
  else []

/-- agent.py, Agent._standing_cards. `possible` models the dict-of-lists
(`possible.get(suit, [])` is a total function defaulting to []); the Python
falsy trump_suit '' is `none`. The suit loop runs over the set of suits in
hand; set iteration order is irrelevant to membership, embedded as dedup. -/
def standing_cards (possible : String → List CardR) (player_hand : List CardR)
    (trump_suit : Option String) : List CardR :=
  match trump_suit with
  | some t =>
    match pymax (player_hand.filter (fun c => c.suit == t)) with
    | some highest_trump => [highest_trump]
    | none => []
  | none =>
    ((player_hand.map (fun c => c.suit)).dedup).flatMap (fun s =>
      standingSuitRule1 possible player_hand s ++ standingSuitRule2 possible player_hand s)

/-- Spec section 4.5, no-trump case, stated from the spec's words: a card c of
the hand is standing when either (a) it is a highest-ranked owned card of its
suit and no possible opponent card of that suit outranks it, or (b) the count
of owned cards of its suit exceeds the count of possible opponent cards of
that suit and c is among the excess highest-ranked owned cards beyond that
count. -/
def standingSpecNoTrump (possible : String → List CardR) (hand : List CardR) (c : CardR) : Prop :=
  c ∈ hand ∧
    (((∀ d ∈ hand.filter (fun x => x.suit == c.suit), d.rank ≤ c.rank) ∧
        ∀ p ∈ possible c.suit, p.rank ≤ c.rank) ∨
      ((possible c.suit).length < (hand.filter (fun x => x.suit == c.suit)).length ∧
        c ∈ (sortDesc (hand.filter (fun x => x.suit == c.suit))).take
          ((hand.filter (fun x => x.suit == c.suit)).length - (possible c.suit).length)))

theorem allowed_first_sub (cards : List Card) : ∀ c ∈ allowed_first cards, c ∈ cards := by
  intro c hc
  unfold allowed_first at hc
  split at hc
  · split at hc
    · exact hc
    · exact (List.mem_filter.mp hc).1
  · exact (List.mem_filter.mp hc).1

theorem followSubset_sub (tc : String) (cards : List Card) (trump : Option String) :
    ∀ c ∈ followSubset tc cards trump, c ∈ cards := by
  intro c hc
  unfold followSubset at hc
  split at hc <;> exact (List.mem_filter.mp hc).1

theorem find?_unique_mem {p : Card → Bool} {l : List Card} {a : Card}
    (ha : a ∈ l) (hpa : p a = true) (huniq : ∀ x, p x = true → x = a) :
    l.find? p = some a := by
  induction l with
  | nil => cases ha
  | cons y ys ih =>
    by_cases hy : p y = true
    · have hy2 : y = a := huniq y hy
      subst hy2
      rw [List.find?_cons_of_pos _ hy]
    · rw [List.find?_cons_of_neg _ (by simpa using hy)]
      have hya : a ≠ y := fun h => hy (h ▸ hpa)
      exact ih (by rcases List.mem_cons.mp ha with h | h; exact absurd h hya; exact h)

/-- C1: forced overtake. The spec's own forced-overtake example (trick led
with Red-A, follower hand Red-Ten and Red-7, no trump) does not return the
singleton Red-7: the call reaches high_card with three Red cards, whose inner
keyless max over Card objects raises TypeError. -/
theorem allowed_general_forced_overtake_typeerror :
    allowed_general [Card.mk "r" "A"] [Card.mk "r" "Z", Card.mk "r" "7"] none false =
      Except.error PyErr.typeError := rfl

/-- C2: trick resolution. high_card returns none for the empty trick and the
sole card of a trumpless singleton, but raises TypeError as soon as two cards
of the led color are present (the claim says the highest-ranked led-color
card, Red-Z, wins), and raises AttributeError on a singleton whose card is of
the trump color (the claim says the singleton's card is returned). -/
theorem high_card_results :
    high_card [] none = Except.ok none
    ∧ high_card [Card.mk "r" "A"] none = Except.ok (some (Card.mk "r" "A"))
    ∧ high_card [Card.mk "r" "A", Card.mk "r" "Z"] none = Except.error PyErr.typeError
    ∧ high_card [Card.mk "r" "A"] (some "r") = Except.error PyErr.attributeError :=
  ⟨rfl, rfl, rfl, rfl⟩

/-- C4: the legality engine violates its non-empty-result contract on a
non-empty hand: following a one-card trick with a single led-color card in
hand raises TypeError instead of returning a list at all. -/
theorem allowed_general_nonempty_violation :
    allowed_general [Card.mk "r" "A"] [Card.mk "r" "K"] none false =
      Except.error PyErr.typeError := rfl

/-- C3: Card.is_higher_than compares the positions of the two ranks in the
canonical ascending-strength order VALUES = [A, Z, K, O, U, 9, 8, 7, 6],
ignores both cards' colors, and makes A the weakest rank and 6 the
strongest. -/
theorem is_higher_than_canonical (a b : Card) :
    (a.is_higher_than b = true ↔ VALUES.indexOf b.value < VALUES.indexOf a.value)
    ∧ (∀ s1 s2 : String, (Card.mk s1 a.value).is_higher_than (Card.mk s2 b.value) =
        a.is_higher_than b)
    ∧ (a.value = "A" → a.is_higher_than b = false)
    ∧ (a.value = "6" → b.value ∈ VALUES → b.value ≠ "6" → a.is_higher_than b = true) := by
  refine ⟨by simp [Card.is_higher_than], fun s1 s2 => rfl, ?_, ?_⟩
  · intro h
    have h0 : VALUES.indexOf "A" = 0 := rfl
    simp [Card.is_higher_than, h, h0]
  · intro h6 hb hne
    have hb9 : b.value = "A" ∨ b.value = "Z" ∨ b.value = "K" ∨ b.value = "O" ∨
        b.value = "U" ∨ b.value = "9" ∨ b.value = "8" ∨ b.value = "7" ∨ b.value = "6" := by
      simpa [VALUES] using hb
    rcases hb9 with h | h | h | h | h | h | h | h | h <;>
      first
        | exact absurd h hne
        | (simp only [Card.is_higher_than, h6, h]; decide)

/-- C5 counterexample: with Red declared trump, higher_cards over a pool
containing the base card Red-K itself returns the base card — the claimed
"never contains base" fails when base is of the trump color. -/
theorem higher_cards_contains_base_cex :
    Card.mk "r" "K" ∈ higher_cards (Card.mk "r" "K") (some "r") [Card.mk "r" "K"] := by
  decide

/-- C5 (amended): higher_cards returns the pool cards of base's color that are
strictly higher-ranked, plus — whenever a trump is declared — every card of
the trump color in the pool; hence base itself appears exactly when a trump is
declared, base is of the trump color and base is in the pool; with no trump
the result never contains base, and the Red-K full-deck example holds. -/
theorem higher_cards_characterization (base c : Card) (t : String) (pool : List Card) :
    (c ∈ higher_cards base none pool ↔
      c ∈ pool ∧ c.color = base.color ∧ VALUES.indexOf base.value < VALUES.indexOf c.value)
    ∧ (c ∈ higher_cards base (some t) pool ↔
      c ∈ pool ∧ ((c.color = base.color ∧ VALUES.indexOf base.value < VALUES.indexOf c.value)
        ∨ c.color = t))
    ∧ base ∉ higher_cards base none pool
    ∧ (base ∈ higher_cards base (some t) pool ↔ base.color = t ∧ base ∈ pool)
    ∧ higher_cards (Card.mk "r" "K") none CARDS =
        [Card.mk "r" "O", Card.mk "r" "U", Card.mk "r" "9", Card.mk "r" "8",
          Card.mk "r" "7", Card.mk "r" "6"] := by
  refine ⟨?_, ?_, ?_, ?_, by decide⟩
  · constructor
    · intro h
      obtain ⟨hp, hcond⟩ := List.mem_filter.mp h
      simp only [Bool.and_eq_true, beq_iff_eq, Card.is_higher_than, decide_eq_true_eq] at hcond
      exact ⟨hp, hcond.2.symm, hcond.1⟩
    · rintro ⟨hp, hcol, hidx⟩
      exact List.mem_filter.mpr ⟨hp, by simp [Card.is_higher_than, hidx, hcol.symm]⟩
  · constructor
    · intro h
      obtain ⟨hp, hcond⟩ := List.mem_filter.mp h
      simp only [Bool.or_eq_true, Bool.and_eq_true, beq_iff_eq, Card.is_higher_than,
        decide_eq_true_eq] at hcond
      rcases hcond with ⟨hi, hcol⟩ | hcol
      · exact ⟨hp, Or.inl ⟨hcol.symm, hi⟩⟩
      · exact ⟨hp, Or.inr hcol⟩
    · rintro ⟨hp, hcond⟩
      refine List.mem_filter.mpr ⟨hp, ?_⟩
      simp only [Bool.or_eq_true, Bool.and_eq_true, beq_iff_eq, Card.is_higher_than,
        decide_eq_true_eq]
      rcases hcond with ⟨hcol, hi⟩ | hcol
      · exact Or.inl ⟨hi, hcol.symm⟩
      · exact Or.inr hcol
  · intro h
    obtain ⟨_, hcond⟩ := List.mem_filter.mp h
    simp only [Bool.and_eq_true, beq_iff_eq, Card.is_higher_than, decide_eq_true_eq] at hcond
    exact absurd hcond.1 (lt_irrefl _)
  · constructor
    · intro h
      obtain ⟨hp, hcond⟩ := List.mem_filter.mp h
      simp only [Bool.or_eq_true, Bool.and_eq_true, beq_iff_eq, Card.is_higher_than,
        decide_eq_true_eq] at hcond
      rcases hcond with ⟨hi, _⟩ | hcol
      · exact absurd hi (lt_irrefl _)
      · exact ⟨hcol, hp⟩
    · rintro ⟨hcol, hp⟩
      exact List.mem_filter.mpr ⟨hp, by simp [hcol]⟩

/-- C6: first-trick follow with the led-color Ace — whenever the trick is
non-empty, the first-trick flag is set and the hand holds the Ace of the led
color, allowed_general returns exactly that singleton Ace (this path returns
before high_card is ever consulted). -/
theorem allowed_general_first_trick_ace (t0 : Card) (rest hand : List Card)
    (trump : Option String) (hace : Card.mk t0.color "A" ∈ hand) :
    allowed_general (t0 :: rest) hand trump true = Except.ok [Card.mk t0.color "A"] := by
  have hfind : hand.find? (fun c => c.color == t0.color && c.value == "A") =
      some (Card.mk t0.color "A") := by
    refine find?_unique_mem hace (by simp) ?_
    intro x hx
    simp only [Bool.and_eq_true, beq_iff_eq] at hx
    cases x
    simp_all
  simp [allowed_general, hfind]

/-- C6 witness: following a Green-7 lead on the first trick while holding the
Green Ace forces that Ace. -/
theorem allowed_general_first_trick_ace_witness :
    allowed_general [Card.mk "g" "7"] [Card.mk "r" "K", Card.mk "g" "A"] none true =
      Except.ok [Card.mk "g" "A"] :=
  allowed_general_first_trick_ace (Card.mk "g" "7") [] [Card.mk "r" "K", Card.mk "g" "A"]
    none (by decide)

/-- C7: first-trick lead rule — with an empty trick and the first-trick flag
set, allowed_general defers to allowed_first, which returns all Aces of the
hand if any, otherwise all Green cards if any, otherwise the whole hand; in
particular the two concrete example hands of the spec. -/
theorem allowed_general_first_lead (hand : List Card) (trump : Option String) :
    (allowed_general [] hand trump true = Except.ok (allowed_first hand))
    ∧ ((∃ c ∈ hand, c.value = "A") →
        allowed_first hand = hand.filter (fun c => c.value == "A"))
    ∧ ((∀ c ∈ hand, c.value ≠ "A") → (∃ c ∈ hand, c.color = "g") →
        allowed_first hand = hand.filter (fun c => c.color == "g"))
    ∧ ((∀ c ∈ hand, c.value ≠ "A") → (∀ c ∈ hand, c.color ≠ "g") →
        allowed_first hand = hand)
    ∧ allowed_first [Card.mk "r" "A", Card.mk "g" "K", Card.mk "s" "7"] = [Card.mk "r" "A"]
    ∧ allowed_first [Card.mk "s" "7", Card.mk "g" "K"] = [Card.mk "g" "K"] := by
  refine ⟨rfl, ?_, ?_, ?_, by decide, by decide⟩
  · rintro ⟨x, hx, hxa⟩
    have hmem : x ∈ hand.filter (fun c => c.value == "A") :=
      List.mem_filter.mpr ⟨hx, by simp [hxa]⟩
    have hne : (hand.filter (fun c => c.value == "A")).isEmpty = false := by
      rw [List.isEmpty_eq_false]
      intro hnil
      rw [hnil] at hmem
      cases hmem
    simp [allowed_first, hne]
  · rintro hA ⟨x, hx, hxg⟩
    have hA' : (hand.filter (fun c => c.value == "A")).isEmpty = true := by
      rw [List.isEmpty_iff]
      exact List.filter_eq_nil_iff.mpr (fun a ha => by simpa using hA a ha)
    have hmem : x ∈ hand.filter (fun c => c.color == "g") :=
      List.mem_filter.mpr ⟨hx, by simp [hxg]⟩
    have hne : (hand.filter (fun c => c.color == "g")).isEmpty = false := by
      rw [List.isEmpty_eq_false]
      intro hnil
      rw [hnil] at hmem
      cases hmem
    simp [allowed_first, hA', hne]
  · intro hA hg
    have hA' : (hand.filter (fun c => c.value == "A")).isEmpty = true := by
      rw [List.isEmpty_iff]
      exact List.filter_eq_nil_iff.mpr (fun a ha => by simpa using hA a ha)
    have hg' : (hand.filter (fun c => c.color == "g")).isEmpty = true := by
      rw [List.isEmpty_iff]
      exact List.filter_eq_nil_iff.mpr (fun a ha => by simpa using hg a ha)
    simp [allowed_first, hA', hg']

/-- C9: Card construction — with an in-domain color and value the constructor
succeeds with exactly that card; an out-of-domain color or value yields the
corresponding invalid-card error; success is exactly membership of the 4-color
by 9-value domain. -/
theorem card_init_domain (c v : String) :
    (c ∈ COLORS → v ∈ VALUES → Card.init c v = Except.ok (Card.mk c v))
    ∧ (c ∉ COLORS → Card.init c v = Except.error ("Invalid color: " ++ c))
    ∧ (c ∈ COLORS → v ∉ VALUES → Card.init c v = Except.error ("Invalid value: " ++ v))
    ∧ ((Card.init c v).isOk = true ↔ c ∈ COLORS ∧ v ∈ VALUES) := by
  refine ⟨?_, ?_, ?_, ?_⟩
  · intro hc hv; simp [Card.init, hc, hv]
  · intro hc; simp [Card.init, hc]
  · intro hc hv; simp [Card.init, hc, hv]
  · rcases Decidable.em (c ∈ COLORS) with hc | hc <;>
      rcases Decidable.em (v ∈ VALUES) with hv | hv <;>
      simp [Card.init, hc, hv, Except.isOk, Except.toBool]

/-- C10: whenever allowed_general returns a list at all, every card of that
list is an element of the given hand — the engine never selects a card from
the trick or the wider deck. -/
theorem allowed_general_subset_hand (trick cards : List Card) (trump : Option String)
    (first : Bool) (l : List Card) (h : allowed_general trick cards trump first = Except.ok l) :
    ∀ c ∈ l, c ∈ cards := by
  intro c hc
  cases trick with
  | nil =>
    cases first with
    | false =>
      simp [allowed_general] at h
      subst h; assumption
    | true =>
      simp [allowed_general] at h
      subst h
      exact allowed_first_sub cards c hc
  | cons t0 rest =>
    simp only [allowed_general] at h
    split at h
    · rename_i ace heq
      have hmem : ace ∈ cards := by
        cases first with
        | false => simp at heq
        | true => exact List.mem_of_find?_eq_some (by simpa using heq)
      simp only [Except.ok.injEq] at h
      subst h
      rcases List.mem_singleton.mp hc with rfl
      exact hmem
    · split at h
      · cases h
      · rename_i high heq
        split at h
        · -- allowed2 was empty, the full hand comes back
          simp only [Except.ok.injEq] at h
          subst h; exact hc
        · simp only [Except.ok.injEq] at h
          subst h
          -- c is in allowed2, which is [hi] with hi of the follow subset, or the subset
          rename_i hne
          split at hc
          · rename_i hi hmem'
            split at hc
            · rcases List.mem_singleton.mp hc with rfl
              rename_i hin
              exact followSubset_sub t0.color cards trump c hin
            · exact followSubset_sub t0.color cards trump c hc
          · exact followSubset_sub t0.color cards trump c hc

/-- C10 witness: a later-trick lead from the singleton hand Red-A returns that
hand, and its card Red-A is an element of the hand. -/
theorem allowed_general_subset_hand_witness :
    Card.mk "r" "A" ∈ [Card.mk "r" "A"] :=
  allowed_general_subset_hand [] [Card.mk "r" "A"] none false [Card.mk "r" "A"] rfl
    (Card.mk "r" "A") (by decide)

theorem pymax_foldl_spec (xs : List CardR) (acc : CardR) :
    (xs.foldl (fun a c => if a.rank < c.rank then c else a) acc = acc ∨
      xs.foldl (fun a c => if a.rank < c.rank then c else a) acc ∈ xs)
    ∧ acc.rank ≤ (xs.foldl (fun a c => if a.rank < c.rank then c else a) acc).rank
    ∧ ∀ x ∈ xs, x.rank ≤ (xs.foldl (fun a c => if a.rank < c.rank then c else a) acc).rank := by
  induction xs generalizing acc with
  | nil => simp
  | cons y ys ih =>
    obtain ⟨hmem, hle, hall⟩ := ih (if acc.rank < y.rank then y else acc)
    rw [List.foldl_cons]
    refine ⟨?_, ?_, ?_⟩
    · rcases hmem with h | h
      · rw [h]; split
        · right; exact List.mem_cons_self _ _
        · left; rfl
      · right; exact List.mem_cons_of_mem _ h
    · refine le_trans ?_ hle
      split <;> omega
    · intro x hx
      rcases List.mem_cons.mp hx with rfl | hx2
      · refine le_trans ?_ hle
        split <;> omega
      · exact hall x hx2

theorem pymax_spec (l : List CardR) (m : CardR) (h : pymax l = some m) :
    m ∈ l ∧ ∀ x ∈ l, x.rank ≤ m.rank := by
  cases l with
  | nil => cases h
  | cons x xs =>
    obtain ⟨hmem, hle, hall⟩ := pymax_foldl_spec xs x
    simp only [pymax, Option.some.injEq] at h
    subst h
    refine ⟨?_, ?_⟩
    · rcases hmem with h | h
      · rw [h]; exact List.mem_cons_self _ _
      · exact List.mem_cons_of_mem _ h
    · intro z hz
      rcases List.mem_cons.mp hz with rfl | hz2
      · exact hle
      · exact hall z hz2

theorem pymax_eq_none (l : List CardR) : pymax l = none ↔ l = [] := by
  cases l <;> simp [pymax]

theorem pymax_filter_eq (hand : List CardR) (s : String) (c : CardR)
    (hc : c ∈ hand.filter (fun x => x.suit == s))
    (hmax : ∀ d ∈ hand.filter (fun x => x.suit == s), d.rank ≤ c.rank) :
    pymax (hand.filter (fun x => x.suit == s)) = some c := by
  obtain ⟨m, hm⟩ : ∃ m, pymax (hand.filter (fun x => x.suit == s)) = some m := by
    cases hl : hand.filter (fun x => x.suit == s) with
    | nil => rw [hl] at hc; cases hc
    | cons a as => exact ⟨_, rfl⟩
  obtain ⟨hmmem, hmall⟩ := pymax_spec _ _ hm
  have h1 : m.rank ≤ c.rank := hmax m hmmem
  have h2 : c.rank ≤ m.rank := hmall c hc
  have hrank : m.rank = c.rank := Nat.le_antisymm h1 h2
  have hsm : m.suit = s := by simpa using (List.mem_filter.mp hmmem).2
  have hsc : c.suit = s := by simpa using (List.mem_filter.mp hc).2
  have hmc : m = c := by
    cases m; cases c
    simp_all
  rw [hm, hmc]

theorem mem_sortDesc (l : List CardR) (c : CardR) : c ∈ sortDesc l ↔ c ∈ l :=
  (List.perm_insertionSort _ l).mem_iff

theorem length_sortDesc (l : List CardR) : (sortDesc l).length = l.length :=
  (List.perm_insertionSort _ l).length_eq

theorem mem_rule1 (possible : String → List CardR) (hand : List CardR) (s : String) (c : CardR) :
    c ∈ standingSuitRule1 possible hand s ↔
      (pymax (hand.filter (fun x => x.suit == s)) = some c ∧
        ∃ hp, pymax (possible s) = some hp ∧ hp.rank ≤ c.rank) := by
  unfold standingSuitRule1
  cases h1 : pymax (hand.filter (fun x => x.suit == s)) with
  | none => simp
  | some hi =>
    cases h2 : pymax (possible s) with
    | none => simp
    | some hp =>
      by_cases hle : hp.rank ≤ hi.rank
      · simp only [if_pos hle, List.mem_singleton, Option.some.injEq]
        constructor
        · rintro rfl
          exact ⟨rfl, hp, rfl, hle⟩
        · rintro ⟨rfl, _⟩
          rfl
      · simp only [if_neg hle, List.not_mem_nil, false_iff, not_and, Option.some.injEq]
        rintro rfl
        rintro ⟨p, hps, hple⟩
        subst hps
        exact hle hple

theorem mem_rule2 (possible : String → List CardR) (hand : List CardR) (s : String) (c : CardR) :
    c ∈ standingSuitRule2 possible hand s ↔
      ((possible s).length < (hand.filter (fun x => x.suit == s)).length ∧
        c ∈ (sortDesc (hand.filter (fun x => x.suit == s))).take
          ((hand.filter (fun x => x.suit == s)).length - (possible s).length)) := by
  unfold standingSuitRule2
  split
  · rename_i hlt
    simp [hlt]
  · rename_i hlt
    simp [hlt]

theorem standing_none_iff (possible : String → List CardR) (hand : List CardR) (c : CardR) :
    c ∈ standing_cards possible hand none ↔ standingSpecNoTrump possible hand c := by
  simp only [standing_cards, List.mem_flatMap, List.mem_dedup, List.mem_map]
  unfold standingSpecNoTrump
  constructor
  · rintro ⟨s, _, hc⟩
    rcases List.mem_append.mp hc with h1 | h2
    · rw [mem_rule1] at h1
      obtain ⟨hpm, hp, hpps, hple⟩ := h1
      obtain ⟨hcmem, hcall⟩ := pymax_spec _ _ hpm
      have hcs : c.suit = s := by simpa using (List.mem_filter.mp hcmem).2
      subst hcs
      refine ⟨(List.mem_filter.mp hcmem).1, Or.inl ⟨hcall, ?_⟩⟩
      intro p hp2
      obtain ⟨_, hppall⟩ := pymax_spec _ _ hpps
      exact le_trans (hppall p hp2) hple
    · rw [mem_rule2] at h2
      obtain ⟨hlen, htake⟩ := h2
      have hcf : c ∈ hand.filter (fun x => x.suit == s) :=
        (mem_sortDesc _ _).mp (List.take_subset _ _ htake)
      have hcs : c.suit = s := by simpa using (List.mem_filter.mp hcf).2
      subst hcs
      exact ⟨(List.mem_filter.mp hcf).1, Or.inr ⟨hlen, htake⟩⟩
  · rintro ⟨hch, hdisj⟩
    refine ⟨c.suit, ⟨c, hch, rfl⟩, ?_⟩
    rcases hdisj with ⟨hmaxall, hpall⟩ | ⟨hlen, htake⟩
    · have hcf : c ∈ hand.filter (fun x => x.suit == c.suit) :=
        List.mem_filter.mpr ⟨hch, by simp⟩
      have hpm := pymax_filter_eq hand c.suit c hcf hmaxall
      cases hps : pymax (possible c.suit) with
      | none =>
        apply List.mem_append.mpr; right
        rw [mem_rule2]
        rw [pymax_eq_none] at hps
        have hplen : (possible c.suit).length = 0 := by rw [hps]; rfl
        have hflen : 0 < (hand.filter (fun x => x.suit == c.suit)).length :=
          List.length_pos.mpr (by intro hnil; rw [hnil] at hcf; cases hcf)
        refine ⟨by omega, ?_⟩
        have htk : (hand.filter (fun x => x.suit == c.suit)).length - (possible c.suit).length =
            (sortDesc (hand.filter (fun x => x.suit == c.suit))).length := by
          rw [length_sortDesc]; omega
        rw [htk, List.take_length]
        exact (mem_sortDesc _ _).mpr hcf
      | some hp =>
        apply List.mem_append.mpr; left
        rw [mem_rule1]
        exact ⟨hpm, hp, hps, hpall hp (pymax_spec _ _ hps).1⟩
    · apply List.mem_append.mpr; right
      rw [mem_rule2]
      exact ⟨hlen, htake⟩

theorem standing_trump_cases (possible : String → List CardR) (hand : List CardR) (t : String)
    (c : CardR) :
    ((standing_cards possible hand (some t)).length ≤ 1)
    ∧ (c ∈ standing_cards possible hand (some t) ↔
        c ∈ hand ∧ c.suit = t ∧ ∀ d ∈ hand, d.suit = t → d.rank ≤ c.rank)
    ∧ (standing_cards possible hand (some t) = [] ↔ ∀ d ∈ hand, d.suit ≠ t) := by
  simp only [standing_cards]
  cases hm : pymax (hand.filter (fun x => x.suit == t)) with
  | none =>
    rw [pymax_eq_none] at hm
    refine ⟨by simp, ?_, ?_⟩
    · simp only [List.not_mem_nil, false_iff, not_and]
      intro hch hst
      have : c ∈ hand.filter (fun x => x.suit == t) :=
        List.mem_filter.mpr ⟨hch, by simp [hst]⟩
      rw [hm] at this
      cases this
    · simp only [true_iff]
      intro d hd hdt
      have : d ∈ hand.filter (fun x => x.suit == t) :=
        List.mem_filter.mpr ⟨hd, by simp [hdt]⟩
      rw [hm] at this
      cases this
  | some m =>
    obtain ⟨hmmem, hmall⟩ := pymax_spec _ _ hm
    have hmf := List.mem_filter.mp hmmem
    have hms : m.suit = t := by simpa using hmf.2
    refine ⟨by simp, ?_, ?_⟩
    · simp only [List.mem_singleton]
      constructor
      · rintro rfl
        refine ⟨hmf.1, hms, ?_⟩
        intro d hd hds
        exact hmall d (List.mem_filter.mpr ⟨hd, by simp [hds]⟩)
      · rintro ⟨hch, hst, hall⟩
        have hpm := pymax_filter_eq hand t c (List.mem_filter.mpr ⟨hch, by simp [hst]⟩)
          (fun d hd => hall d (List.mem_filter.mp hd).1
            (by simpa using (List.mem_filter.mp hd).2))
        rw [hm] at hpm
        injection hpm with hpm
        exact hpm.symm
    · constructor
      · intro h
        exact absurd h (List.cons_ne_nil _ _)
      · intro hall
        exact absurd hms (hall m hmf.1)

/-- C8: standing-cards analysis — with a declared trump the result has at most
one card, namely a highest-ranked trump card of the hand (membership is
exactly being a trump card of the hand that no trump card of the hand
outranks, and the result is empty exactly when the hand holds no trump); with
no trump, membership is exactly the spec's suit-local rule: a highest owned
card of its suit that no possible opponent card of the suit outranks, or one
of the excess highest-ranked owned cards when the hand holds more cards of the
suit than the opponents possibly can. -/
theorem standing_cards_spec (possible : String → List CardR) (hand : List CardR) (t : String)
    (c : CardR) :
    ((standing_cards possible hand (some t)).length ≤ 1)
    ∧ (c ∈ standing_cards possible hand (some t) ↔
        c ∈ hand ∧ c.suit = t ∧ ∀ d ∈ hand, d.suit = t → d.rank ≤ c.rank)
    ∧ (standing_cards possible hand (some t) = [] ↔ ∀ d ∈ hand, d.suit ≠ t)
    ∧ (c ∈ standing_cards possible hand none ↔ standingSpecNoTrump possible hand c) := by
  obtain ⟨h1, h2, h3⟩ := standing_trump_cases possible hand t c
  exact ⟨h1, h2, h3, standing_none_iff possible hand c⟩
